import Mathlib

/-!
Verification of the audio combination engine of the Add-or-Subtract-Stems
application (src/main_window.py, functions `_run_lower_volume` and
`_process_subtract_stems`, with `load_audio` from src/audio_io.py).

Audio buffers are frames-by-channels matrices of float64 samples; we model
the samples as rationals, so float identities claimed "within floating-point
tolerance" become exact equalities.  The interactive clip dialog of
`_run_lower_volume` is modelled by an explicit `ClipChoice` argument; writing
the output file is modelled by the `LVOutcome.written` constructor.  The dB
value chosen in the UI enters the engine only through the linear gain
`gain = 10 ** (db / 20)` that the code computes up front; the engine below is
therefore parameterised by that linear gain `g`.
-/

namespace MinusStems

/-- An in-memory audio buffer as produced by `load_audio` (src/audio_io.py):
a frames-by-channels sample matrix (numpy `always_2d` float64 array, modelled
as a list of frames over ℚ), the channel count (`shape[1]`), and the sample
rate. -/
structure AudioBuffer where
  frames : List (List ℚ)
  channels : ℕ
  sr : ℕ
deriving DecidableEq

/-- Rectangularity: every frame has exactly `ch` per-channel samples.  numpy
arrays are rectangular, so buffers coming from `load_audio` satisfy this with
`ch` the buffer's channel count. -/
def Rect (fs : List (List ℚ)) (ch : ℕ) : Prop := ∀ fr ∈ fs, fr.length = ch

instance (fs : List (List ℚ)) (ch : ℕ) : Decidable (Rect fs ch) := by
  unfold Rect; infer_instance

/-- Terminal errors of the two processing paths.  `noStems` and
`emptyOriginal` model the explicit `RuntimeError`/`ValueError` raises;
`sampleRateMismatch`/`channelMismatch` model the `ValueError`s raised in the
per-stem loops (carrying the offending file name and, for rates, both rates);
`emptyPeak` models the `ValueError` numpy raises when `np.max` is applied to
an empty array. -/
inductive MixError where
  | noStems
  | sampleRateMismatch (file : String) (fileSr refSr : ℕ)
  | channelMismatch (file : String)
  | emptyOriginal
  | emptyPeak
deriving DecidableEq

/-- Elementwise multiplication by a scalar gain (`data * gain`). -/
def scaleFrames (g : ℚ) (fs : List (List ℚ)) : List (List ℚ) :=
  fs.map (fun fr => fr.map (fun x => x * g))

/-- `np.repeat(stem_data, 2, axis=1)`: every per-channel value of a frame is
repeated twice (the code only applies this to mono frames `[x]`, which become
`[x, x]`). -/
def monoToStereo (fs : List (List ℚ)) : List (List ℚ) :=
  fs.map (fun fr => fr.flatMap (fun x => [x, x]))

/-- `stem_data.mean(axis=1, keepdims=True)`: each frame is replaced by the
one-element frame holding the arithmetic mean of its channels. -/
def stereoToMono (fs : List (List ℚ)) : List (List ℚ) :=
  fs.map (fun fr => [fr.sum / (fr.length : ℚ)])

/-- `np.zeros((n, ch))`. -/
def zeroFrames (n ch : ℕ) : List (List ℚ) :=
  List.replicate n (List.replicate ch 0)

/-- `np.vstack((fs, np.zeros((n - len(fs), ch))))`: right-pad with
zero-valued frames up to length `n`. -/
def padTo (n ch : ℕ) (fs : List (List ℚ)) : List (List ℚ) :=
  fs ++ zeroFrames (n - fs.length) ch

/-- Elementwise addition of two equally shaped sample matrices
(`combined += stem_data`). -/
def addFrames (a b : List (List ℚ)) : List (List ℚ) :=
  List.zipWith (fun ra rb => List.zipWith (fun x y => x + y) ra rb) a b

/-- Phase inversion `-combined`. -/
def negFrames (fs : List (List ℚ)) : List (List ℚ) :=
  fs.map (fun fr => fr.map (fun x => -x))

/-- Elementwise division by the measured peak (`combined / peak`). -/
def divFrames (p : ℚ) (fs : List (List ℚ)) : List (List ℚ) :=
  fs.map (fun fr => fr.map (fun x => x / p))

/-- All samples of a buffer in row-major order. -/
def allSamples (fs : List (List ℚ)) : List ℚ := fs.flatten

/-- `np.max(np.abs(fs))`: `none` models the `ValueError` numpy raises on an
empty array (a zero-size reduction), otherwise the maximum absolute sample. -/
def peakOf (fs : List (List ℚ)) : Option ℚ :=
  match allSamples fs with
  | [] => none
  | x :: xs => some (xs.foldl (fun m y => max m |y|) |x|)

/-- The channel-mismatch handling both loops share: a mono stem against a
stereo reference is duplicated, a stereo stem against a mono reference is
averaged, any other differing combination raises `ChannelMismatch` naming the
file; equal channel counts pass through unchanged. -/
def reconcileChannels (file : String) (channels : ℕ) (b : AudioBuffer) :
    Except MixError AudioBuffer :=
  if b.channels ≠ channels then
    if b.channels = 1 ∧ channels = 2 then
      .ok ⟨monoToStereo b.frames, 2, b.sr⟩
    else if b.channels = 2 ∧ channels = 1 then
      .ok ⟨stereoToMono b.frames, 1, b.sr⟩
    else
      .error (.channelMismatch file)
  else
    .ok b

/-- The loop state of the multi-stem branch of `_run_lower_volume`:
the accumulated `combined` matrix, the running `max_len`, and the reference
`channels` and `sr` established by the first stem. -/
structure MixAcc where
  combined : List (List ℚ)
  maxLen : ℕ
  channels : ℕ
  sr : ℕ
deriving DecidableEq

/-- One iteration of the stem loop of `_run_lower_volume`
(src/main_window.py lines 461-490): check the sample rate, reconcile
channels, apply the gain, grow `combined` if the stem is longer, pad the stem
if shorter, then accumulate. -/
def addStemStep (g : ℚ) (acc : MixAcc) (stem : String × AudioBuffer) :
    Except MixError MixAcc :=
  if stem.2.sr ≠ acc.sr then
    .error (.sampleRateMismatch stem.1 stem.2.sr acc.sr)
  else
    match reconcileChannels stem.1 acc.channels stem.2 with
    | .error e => .error e
    | .ok st =>
      let sd := scaleFrames g st.frames
      let combined1 :=
        if acc.maxLen < sd.length then padTo sd.length acc.channels acc.combined
        else acc.combined
      let maxLen1 := if acc.maxLen < sd.length then sd.length else acc.maxLen
      let sd1 := if sd.length < maxLen1 then padTo maxLen1 acc.channels sd else sd
      .ok ⟨addFrames combined1 sd1, maxLen1, acc.channels, acc.sr⟩

/-- The stem loop of `_run_lower_volume`, stems processed in input order,
stopping at the first error. -/
def foldStems (g : ℚ) : MixAcc → List (String × AudioBuffer) →
    Except MixError MixAcc
  | acc, [] => .ok acc
  | acc, s :: rest =>
    match addStemStep g acc s with
    | .error e => .error e
    | .ok acc1 => foldStems g acc1 rest

/-- The loop state before the first iteration: the first stem, scaled by the
gain, establishes `combined`, `max_len`, `channels` and `sr`. -/
def initAcc (g : ℚ) (first : AudioBuffer) : MixAcc :=
  ⟨scaleFrames g first.frames, first.frames.length, first.channels, first.sr⟩

/-- The combined buffer of the multi-stem branch of `_run_lower_volume`,
before the clip check. -/
def mixCombined (g : ℚ) (first : AudioBuffer)
    (rest : List (String × AudioBuffer)) : Except MixError MixAcc :=
  foldStems g (initAcc g first) rest

/-- The user's answer to the clip dialog: lower the volume (`yes_btn`), let
it clip (`no_btn`), or cancel via Esc or the window close button. -/
inductive ClipChoice where
  | yes
  | no
  | cancel
deriving DecidableEq

/-- The observable outcome of a processing run: either the operation was
cancelled with no file written, or a buffer was written.  `normalizedBy`
records the peak the buffer was divided by when clip normalization was
applied (`none` when the buffer was written unchanged); the code folds the
same fact into `total_db = db - reduction_db` for the output file name. -/
inductive LVOutcome where
  | cancelled
  | written (frames : List (List ℚ)) (sr : ℕ) (normalizedBy : Option ℚ)
deriving DecidableEq

/-- The multi-stem branch of `_run_lower_volume` (lines 449-576): accumulate,
measure the peak, and if it exceeds full scale resolve the clip dialog. -/
def runLowerVolumeMulti (g : ℚ) (choice : ClipChoice) (first : AudioBuffer)
    (rest : List (String × AudioBuffer)) : Except MixError LVOutcome :=
  match mixCombined g first rest with
  | .error e => .error e
  | .ok acc =>
    match peakOf acc.combined with
    | none => .error .emptyPeak
    | some peak =>
      if 1 < peak then
        match choice with
        | .cancel => .ok .cancelled
        | .yes => .ok (.written (divFrames peak acc.combined) acc.sr (some peak))
        | .no => .ok (.written acc.combined acc.sr none)
      else
        .ok (.written acc.combined acc.sr none)

/-- `_run_lower_volume` (src/main_window.py lines 429-576): no stems raises,
a single stem takes the gain-only path with no clip check, two or more stems
take the accumulate-then-clip-check path. -/
def runLowerVolume (g : ℚ) (choice : ClipChoice) :
    List (String × AudioBuffer) → Except MixError LVOutcome
  | [] => .error .noStems
  | [s] => .ok (.written (scaleFrames g s.2.frames) s.2.sr none)
  | s1 :: s2 :: rest => runLowerVolumeMulti g choice s1.2 (s2 :: rest)

/-- Length alignment of `_process_subtract_stems` (lines 675-679): a stem
shorter than the original is right-padded with zero frames, a longer one is
right-truncated, an equal one passes through. -/
def alignTo (maxLen channels : ℕ) (fs : List (List ℚ)) : List (List ℚ) :=
  if fs.length < maxLen then padTo maxLen channels fs
  else if maxLen < fs.length then fs.take maxLen
  else fs

/-- One iteration of the stem loop of `_process_subtract_stems`
(lines 660-681): check the sample rate, reconcile channels against the
original's channel count, align to the original's length, accumulate. -/
def subStemStep (channels maxLen sr : ℕ) (combined : List (List ℚ))
    (stem : String × AudioBuffer) : Except MixError (List (List ℚ)) :=
  if stem.2.sr ≠ sr then
    .error (.sampleRateMismatch stem.1 stem.2.sr sr)
  else
    match reconcileChannels stem.1 channels stem.2 with
    | .error e => .error e
    | .ok st => .ok (addFrames combined (alignTo maxLen channels st.frames))

/-- The stem loop of `_process_subtract_stems`, in input order, stopping at
the first error. -/
def foldSubStems (channels maxLen sr : ℕ) :
    List (List ℚ) → List (String × AudioBuffer) → Except MixError (List (List ℚ))
  | combined, [] => .ok combined
  | combined, s :: rest =>
    match subStemStep channels maxLen sr combined s with
    | .error e => .error e
    | .ok c1 => foldSubStems channels maxLen sr c1 rest

/-- The summed stems of `_process_subtract_stems`: the guards for missing
stems and a zero-frame original, then the loop starting from
`np.zeros_like(orig_data)`. -/
def subSummed (orig : AudioBuffer) (stems : List (String × AudioBuffer)) :
    Except MixError (List (List ℚ)) :=
  if stems.isEmpty then .error .noStems
  else if orig.frames.length = 0 then .error .emptyOriginal
  else
    foldSubStems orig.channels orig.frames.length orig.sr
      (zeroFrames orig.frames.length orig.channels) stems

/-- `result = orig_data + inverted` where `inverted = -combined`
(lines 683-685). -/
def subResult (orig : AudioBuffer) (stems : List (String × AudioBuffer)) :
    Except MixError (List (List ℚ)) :=
  match subSummed orig stems with
  | .error e => .error e
  | .ok summed => .ok (addFrames orig.frames (negFrames summed))

/-- `_process_subtract_stems` (lines 641-698): compute the cancellation
result, measure its peak, silently normalize when `peak > 1.0 and peak > 0.0`
(no dialog on this path), and write. -/
def processSubtractStems (orig : AudioBuffer)
    (stems : List (String × AudioBuffer)) : Except MixError LVOutcome :=
  match subResult orig stems with
  | .error e => .error e
  | .ok result =>
    match peakOf result with
    | none => .error .emptyPeak
    | some peak =>
      if 1 < peak ∧ 0 < peak then
        .ok (.written (divFrames peak result) orig.sr (some peak))
      else
        .ok (.written result orig.sr none)

/-- The sample of a matrix at frame `i`, channel `c`, reading 0 out of
range.  Zero-padding is invisible to this view, which makes it the right
observation for the alignment claims. -/
def getSample (fs : List (List ℚ)) (i c : ℕ) : ℚ :=
  (((fs.get? i).getD []).get? c).getD 0

/-- The value of the running `max_len` after folding a list of stems into an
accumulator whose `max_len` is `m`. -/
def restMaxLen (m : ℕ) (stems : List (String × AudioBuffer)) : ℕ :=
  stems.foldl (fun acc s => max acc s.2.frames.length) m

/-- The total contribution of a list of stems to the sample at frame `i`,
channel `c`: each stem contributes its (zero-extended) sample there times the
gain. -/
def stemSum (g : ℚ) (stems : List (String × AudioBuffer)) (i c : ℕ) : ℚ :=
  (stems.map (fun s => getSample s.2.frames i c * g)).sum

/-! ### Decidability of run outcomes, used to evaluate concrete runs -/

instance {ε α : Type _} [DecidableEq ε] [DecidableEq α] : DecidableEq (Except ε α) :=
  fun a b =>
    match a, b with
    | .error e1, .error e2 =>
      if h : e1 = e2 then .isTrue (by rw [h])
      else .isFalse (fun hc => h (Except.error.inj hc))
    | .error _, .ok _ => .isFalse (fun hc => Except.noConfusion hc)
    | .ok _, .error _ => .isFalse (fun hc => Except.noConfusion hc)
    | .ok a1, .ok a2 =>
      if h : a1 = a2 then .isTrue (by rw [h])
      else .isFalse (fun hc => h (Except.ok.inj hc))

/-! ### Shape lemmas -/

lemma scaleFrames_length (g : ℚ) (fs : List (List ℚ)) :
    (scaleFrames g fs).length = fs.length :=
  List.length_map fs _

lemma zeroFrames_length (n ch : ℕ) : (zeroFrames n ch).length = n :=
  List.length_replicate n _

lemma padTo_length (n ch : ℕ) (fs : List (List ℚ)) :
    (padTo n ch fs).length = max fs.length n := by
  unfold padTo
  rw [List.length_append, zeroFrames_length]
  omega

lemma addFrames_length (a b : List (List ℚ)) :
    (addFrames a b).length = min a.length b.length :=
  List.length_zipWith _ a b

lemma negFrames_length (fs : List (List ℚ)) : (negFrames fs).length = fs.length :=
  List.length_map fs _

lemma divFrames_length (p : ℚ) (fs : List (List ℚ)) :
    (divFrames p fs).length = fs.length :=
  List.length_map fs _

lemma alignTo_length (maxLen channels : ℕ) (fs : List (List ℚ)) :
    (alignTo maxLen channels fs).length = maxLen := by
  unfold alignTo
  by_cases h1 : fs.length < maxLen
  · rw [if_pos h1, padTo_length]; omega
  · rw [if_neg h1]
    by_cases h2 : maxLen < fs.length
    · rw [if_pos h2, List.length_take]; omega
    · rw [if_neg h2]; omega

lemma Rect_scale {fs : List (List ℚ)} {ch : ℕ} (h : Rect fs ch) (g : ℚ) :
    Rect (scaleFrames g fs) ch := by
  intro fr hfr
  obtain ⟨fr0, h0, rfl⟩ := List.mem_map.1 hfr
  rw [List.length_map]
  exact h fr0 h0

lemma Rect_zero (n ch : ℕ) : Rect (zeroFrames n ch) ch := by
  intro fr hfr
  rw [List.eq_of_mem_replicate hfr]
  exact List.length_replicate ch 0

lemma Rect_pad {fs : List (List ℚ)} {ch : ℕ} (h : Rect fs ch) (n : ℕ) :
    Rect (padTo n ch fs) ch := by
  intro fr hfr
  rcases List.mem_append.1 hfr with h1 | h2
  · exact h fr h1
  · exact Rect_zero _ _ fr h2

lemma Rect_add : ∀ {a b : List (List ℚ)} {ch : ℕ},
    Rect a ch → Rect b ch → Rect (addFrames a b) ch
  | [], _, _, _, _ => by intro fr hfr; simp [addFrames] at hfr
  | _ :: _, [], _, _, _ => by intro fr hfr; simp [addFrames] at hfr
  | ra :: a, rb :: b, ch, ha, hb => by
    intro fr hfr
    rcases List.mem_cons.1 hfr with h1 | h2
    · rw [h1, List.length_zipWith, ha ra (by simp), hb rb (by simp)]
      exact min_self ch
    · exact Rect_add (fun x hx => ha x (by simp [hx]))
        (fun x hx => hb x (by simp [hx])) fr h2

/-! ### Pointwise sample lemmas -/

lemma getD_get?_zero {l : List ℚ} (h : ∀ x ∈ l, x = 0) (c : ℕ) :
    ((l.get? c).getD 0 : ℚ) = 0 := by
  cases hc : l.get? c with
  | none => rfl
  | some v => simpa using h v (List.get?_mem hc)

lemma getSample_nil (i c : ℕ) : getSample [] i c = 0 := rfl

lemma getSample_oob (fs : List (List ℚ)) (i c : ℕ) (h : fs.length ≤ i) :
    getSample fs i c = 0 := by
  unfold getSample
  rw [List.get?_eq_none.2 h]
  rfl

lemma getSample_scale (g : ℚ) (fs : List (List ℚ)) (i c : ℕ) :
    getSample (scaleFrames g fs) i c = getSample fs i c * g := by
  unfold getSample scaleFrames
  rw [List.get?_map]
  cases hfs : fs.get? i with
  | none => simp
  | some fr =>
    simp only [Option.map_some', Option.getD_some]
    rw [List.get?_map]
    cases hc : fr.get? c with
    | none => simp
    | some x => simp

lemma getSample_pad (n ch : ℕ) (fs : List (List ℚ)) (i c : ℕ) :
    getSample (padTo n ch fs) i c = getSample fs i c := by
  unfold getSample padTo
  by_cases hi : i < fs.length
  · rw [List.get?_append hi]
  · have hle : fs.length ≤ i := not_lt.1 hi
    rw [List.get?_append_right hle, List.get?_eq_none.2 hle]
    cases hz : (zeroFrames (n - fs.length) ch).get? (i - fs.length) with
    | none => rfl
    | some fr =>
      have hfr : fr = List.replicate ch 0 :=
        List.eq_of_mem_replicate (List.get?_mem hz)
      subst hfr
      simp only [Option.getD_some]
      exact getD_get?_zero (fun x hx => List.eq_of_mem_replicate hx) c

lemma zip_add_getD : ∀ (ra rb : List ℚ), ra.length = rb.length → ∀ c : ℕ,
    (((List.zipWith (fun x y => x + y) ra rb).get? c).getD 0 : ℚ) =
      (ra.get? c).getD 0 + (rb.get? c).getD 0
  | [], [], _, c => by simp
  | [], _ :: _, h, _ => by simp at h
  | _ :: _, [], h, _ => by simp at h
  | a :: ra, b :: rb, h, 0 => by simp
  | a :: ra, b :: rb, h, c + 1 => by
    simpa using zip_add_getD ra rb (by simpa using h) c

lemma getSample_add : ∀ (a b : List (List ℚ)) (ch : ℕ), Rect a ch → Rect b ch →
    a.length = b.length → ∀ (i c : ℕ),
    getSample (addFrames a b) i c = getSample a i c + getSample b i c
  | [], [], _, _, _, _, _, _ => by simp [addFrames, getSample_nil]
  | [], _ :: _, _, _, _, h, _, _ => by simp at h
  | _ :: _, [], _, _, _, h, _, _ => by simp at h
  | ra :: a, rb :: b, ch, ha, hb, h, 0, c =>
    zip_add_getD ra rb (by rw [ha ra (by simp), hb rb (by simp)]) c
  | ra :: a, rb :: b, ch, ha, hb, h, i + 1, c =>
    getSample_add a b ch (fun x hx => ha x (by simp [hx]))
      (fun x hx => hb x (by simp [hx])) (by simpa using h) i c

/-- Two rectangular sample matrices of the same shape with the same samples
everywhere are equal. -/
lemma frames_ext {fs gs : List (List ℚ)} {ch : ℕ} (hf : Rect fs ch)
    (hg : Rect gs ch) (hlen : fs.length = gs.length)
    (h : ∀ i c, getSample fs i c = getSample gs i c) : fs = gs := by
  apply List.ext_get hlen
  intro n h1 h2
  apply List.ext_get
  · rw [hf _ (List.get_mem fs n h1), hg _ (List.get_mem gs n h2)]
  · intro c hc1 hc2
    have hs := h n c
    unfold getSample at hs
    rw [List.get?_eq_get h1, List.get?_eq_get h2] at hs
    simp only [Option.getD_some] at hs
    rw [List.get?_eq_get hc1, List.get?_eq_get hc2] at hs
    simpa using hs

/-! ### The accumulation loop of the additive path, characterised pointwise -/

/-- One loop iteration, on stems that need no channel conversion: the
accumulator keeps its channel count and rate, `max_len` grows to cover the
stem, and every sample gains the stem's zero-extended contribution. -/
lemma addStemStep_spec (g : ℚ) (acc : MixAcc) (s : String × AudioBuffer)
    (hsr : s.2.sr = acc.sr) (hch : s.2.channels = acc.channels)
    (hrb : Rect s.2.frames acc.channels)
    (hrc : Rect acc.combined acc.channels)
    (hlc : acc.combined.length = acc.maxLen) :
    ∃ C, addStemStep g acc s =
        .ok ⟨C, max acc.maxLen s.2.frames.length, acc.channels, acc.sr⟩ ∧
      Rect C acc.channels ∧ C.length = max acc.maxLen s.2.frames.length ∧
      ∀ i c, getSample C i c =
        getSample acc.combined i c + getSample s.2.frames i c * g := by
  have hrec : reconcileChannels s.1 acc.channels s.2 = .ok s.2 := by
    unfold reconcileChannels
    rw [if_neg (by simp [hch])]
  have hsl : (scaleFrames g s.2.frames).length = s.2.frames.length :=
    scaleFrames_length g s.2.frames
  simp only [addStemStep, hsr, ne_eq, not_true_eq_false, if_false, hrec, hsl]
  by_cases hlt : acc.maxLen < s.2.frames.length
  · simp only [if_pos hlt, lt_self_iff_false, if_false]
    refine ⟨addFrames (padTo s.2.frames.length acc.channels acc.combined)
        (scaleFrames g s.2.frames), ?_, ?_, ?_, ?_⟩
    · rw [max_eq_right hlt.le]
    · exact Rect_add (Rect_pad hrc _) (Rect_scale hrb g)
    · rw [addFrames_length, padTo_length, hsl, hlc]; omega
    · intro i c
      rw [getSample_add _ _ acc.channels (Rect_pad hrc _) (Rect_scale hrb g)
        (by rw [padTo_length, hsl, hlc, max_eq_right hlt.le]),
        getSample_pad, getSample_scale]
  · simp only [if_neg hlt]
    have hle : s.2.frames.length ≤ acc.maxLen := not_lt.1 hlt
    by_cases hlt2 : s.2.frames.length < acc.maxLen
    · simp only [if_pos hlt2]
      refine ⟨addFrames acc.combined
          (padTo acc.maxLen acc.channels (scaleFrames g s.2.frames)), ?_, ?_, ?_, ?_⟩
      · rw [max_eq_left hle]
      · exact Rect_add hrc (Rect_pad (Rect_scale hrb g) _)
      · rw [addFrames_length, padTo_length, hsl, hlc]; omega
      · intro i c
        rw [getSample_add _ _ acc.channels hrc (Rect_pad (Rect_scale hrb g) _)
          (by rw [padTo_length, hsl, hlc, max_eq_right hlt2.le]),
          getSample_pad, getSample_scale]
    · simp only [if_neg hlt2]
      have heq : s.2.frames.length = acc.maxLen := by omega
      refine ⟨addFrames acc.combined (scaleFrames g s.2.frames), ?_, ?_, ?_, ?_⟩
      · rw [max_eq_left hle]
      · exact Rect_add hrc (Rect_scale hrb g)
      · rw [addFrames_length, hsl, hlc, heq]; omega
      · intro i c
        rw [getSample_add _ _ acc.channels hrc (Rect_scale hrb g)
          (by rw [hsl, hlc, heq]), getSample_scale]

/-- The whole loop, by induction: the final `max_len` is the running maximum
of the stem lengths and every sample of the final `combined` is the starting
sample plus the total gain-scaled contribution of the stems. -/
lemma foldStems_spec (g : ℚ) (ch r : ℕ) :
    ∀ (stems : List (String × AudioBuffer)) (acc : MixAcc),
      acc.channels = ch → acc.sr = r →
      Rect acc.combined ch → acc.combined.length = acc.maxLen →
      (∀ s ∈ stems, s.2.sr = r ∧ s.2.channels = ch ∧ Rect s.2.frames ch) →
      ∃ C, foldStems g acc stems = .ok ⟨C, restMaxLen acc.maxLen stems, ch, r⟩ ∧
        Rect C ch ∧ C.length = restMaxLen acc.maxLen stems ∧
        ∀ i c, getSample C i c = getSample acc.combined i c + stemSum g stems i c := by
  intro stems
  induction stems with
  | nil =>
    intro acc h1 h2 h3 h4 _
    refine ⟨acc.combined, ?_, h3, by simpa [restMaxLen] using h4, ?_⟩
    · show Except.ok acc = _
      obtain ⟨C0, m0, ch0, r0⟩ := acc
      simp only at h1 h2
      rw [h1, h2]
      rfl
    · intro i c
      simp [stemSum]
  | cons s rest ih =>
    intro acc h1 h2 h3 h4 hall
    obtain ⟨hs1, hs2, hs3⟩ := hall s (by simp)
    obtain ⟨C1, heq, hr1, hl1, hg1⟩ := addStemStep_spec g acc s
      (by rw [hs1, h2]) (by rw [hs2, h1]) (by rw [h1]; exact hs3)
      (by rw [h1]; exact h3) h4
    obtain ⟨C2, heq2, hr2, hl2, hg2⟩ := ih
      ⟨C1, max acc.maxLen s.2.frames.length, acc.channels, acc.sr⟩
      h1 h2 (by rw [h1] at hr1; exact hr1) hl1
      (fun x hx => hall x (by simp [hx]))
    refine ⟨C2, ?_, hr2, ?_, ?_⟩
    · have hstep : foldStems g acc (s :: rest) =
          foldStems g ⟨C1, max acc.maxLen s.2.frames.length, acc.channels, acc.sr⟩ rest := by
        simp only [foldStems]
        rw [heq]
      rw [hstep, heq2]
      have hrml : restMaxLen acc.maxLen (s :: rest) =
          restMaxLen (max acc.maxLen s.2.frames.length) rest := rfl
      rw [hrml]
    · have hrml : restMaxLen acc.maxLen (s :: rest) =
          restMaxLen (max acc.maxLen s.2.frames.length) rest := rfl
      rw [hrml]
      exact hl2
    · intro i c
      have hss : stemSum g (s :: rest) i c =
          getSample s.2.frames i c * g + stemSum g rest i c := by
        simp [stemSum]
      rw [hg2 i c, hg1 i c, hss]
      ring

/-- The combined buffer of the multi-stem additive path, in closed form. -/
lemma mixCombined_spec (g : ℚ) (ch r : ℕ) (first : AudioBuffer)
    (rest : List (String × AudioBuffer))
    (h1 : first.channels = ch) (h2 : first.sr = r) (h3 : Rect first.frames ch)
    (hall : ∀ s ∈ rest, s.2.sr = r ∧ s.2.channels = ch ∧ Rect s.2.frames ch) :
    ∃ C, mixCombined g first rest =
        .ok ⟨C, restMaxLen first.frames.length rest, ch, r⟩ ∧
      Rect C ch ∧ C.length = restMaxLen first.frames.length rest ∧
      ∀ i c, getSample C i c =
        getSample first.frames i c * g + stemSum g rest i c := by
  obtain ⟨C, heq, hr, hl, hg⟩ := foldStems_spec g ch r rest (initAcc g first)
    h1 h2 (Rect_scale h3 g) (scaleFrames_length g first.frames) hall
  refine ⟨C, heq, hr, hl, ?_⟩
  intro i c
  have hinit : getSample (initAcc g first).combined i c =
      getSample first.frames i c * g := getSample_scale g first.frames i c
  rw [hg i c, hinit]

/-! ### Permutation invariance helpers -/

lemma foldl_max_perm {l1 l2 : List ℕ} (h : l1.Perm l2) :
    ∀ a : ℕ, l1.foldl max a = l2.foldl max a := by
  induction h with
  | nil => intro a; rfl
  | cons x _ ih => intro a; simp only [List.foldl_cons]; exact ih (max a x)
  | swap x y l =>
    intro a
    simp only [List.foldl_cons]
    rw [max_assoc, max_comm y x, ← max_assoc]
  | trans _ _ ih1 ih2 => intro a; rw [ih1 a, ih2 a]

lemma restMaxLen_eq (m : ℕ) (stems : List (String × AudioBuffer)) :
    restMaxLen m stems =
      ((stems.map Prod.snd).map (fun b => b.frames.length)).foldl max m := by
  unfold restMaxLen
  rw [List.map_map, List.foldl_map]
  rfl

lemma stemSum_eq (g : ℚ) (stems : List (String × AudioBuffer)) (i c : ℕ) :
    stemSum g stems i c =
      ((stems.map Prod.snd).map (fun b => getSample b.frames i c * g)).sum := by
  unfold stemSum
  rw [List.map_map]
  rfl

/-! ### Peak lemmas -/

lemma foldl_max_abs_zero : ∀ (xs : List ℚ), (∀ y ∈ xs, y = 0) →
    xs.foldl (fun m y => max m |y|) 0 = 0
  | [], _ => rfl
  | x :: xs, h => by
    have hx : x = 0 := h x (by simp)
    rw [List.foldl_cons, hx, abs_zero, max_self]
    exact foldl_max_abs_zero xs (fun y hy => h y (by simp [hy]))

/-- A nonempty all-zero buffer has peak 0. -/
lemma peakOf_zeros {fs : List (List ℚ)} (h0 : ∀ x ∈ allSamples fs, x = 0)
    (hne : allSamples fs ≠ []) : peakOf fs = some 0 := by
  unfold peakOf
  cases hs : allSamples fs with
  | nil => exact absurd hs hne
  | cons x xs =>
    have hx : x = 0 := h0 x (by rw [hs]; simp)
    show some (xs.foldl (fun m y => max m |y|) |x|) = some 0
    rw [hx, abs_zero]
    rw [foldl_max_abs_zero xs (fun y hy => h0 y (by rw [hs]; simp [hy]))]

lemma foldl_max_abs_div (p : ℚ) (hp : 0 < p) : ∀ (xs : List ℚ) (a : ℚ),
    (xs.map (fun x => x / p)).foldl (fun m y => max m |y|) (a / p) =
      (xs.foldl (fun m y => max m |y|) a) / p
  | [], _ => rfl
  | x :: xs, a => by
    have h1 : max (a / p) |x / p| = (max a |x|) / p := by
      rw [abs_div, abs_of_pos hp, max_div_div_right hp.le]
    simp only [List.map_cons, List.foldl_cons]
    rw [h1]
    exact foldl_max_abs_div p hp xs (max a |x|)

lemma allSamples_div (p : ℚ) (fs : List (List ℚ)) :
    allSamples (divFrames p fs) = (allSamples fs).map (fun x => x / p) := by
  unfold allSamples divFrames
  rw [List.map_flatten]

/-- Dividing a buffer by a positive constant divides its peak. -/
lemma peakOf_div {fs : List (List ℚ)} {q : ℚ} (p : ℚ) (hp : 0 < p)
    (h : peakOf fs = some q) : peakOf (divFrames p fs) = some (q / p) := by
  unfold peakOf at h ⊢
  rw [allSamples_div]
  cases hs : allSamples fs with
  | nil => rw [hs] at h; exact absurd h (by simp)
  | cons x xs =>
    rw [hs] at h
    simp only [List.map_cons]
    have hx : |x / p| = |x| / p := by rw [abs_div, abs_of_pos hp]
    show some ((xs.map (fun y => y / p)).foldl (fun m y => max m |y|) |x / p|) = _
    rw [hx, foldl_max_abs_div p hp]
    injection h with h
    rw [h]

/-! ### The subtractive path: inversion lemmas -/

lemma zip_add_neg_row : ∀ (r : List ℚ),
    List.zipWith (fun x y => x + y) r (r.map (fun x => -x)) =
      r.map (fun _ => (0:ℚ))
  | [] => rfl
  | a :: r => by
    simp only [List.map_cons, List.zipWith_cons_cons, add_neg_cancel]
    rw [zip_add_neg_row r]

/-- Adding the phase inversion of a buffer to itself gives exact silence. -/
lemma add_neg_self_frames : ∀ (fs : List (List ℚ)),
    addFrames fs (negFrames fs) = fs.map (fun fr => fr.map (fun _ => (0:ℚ)))
  | [] => rfl
  | fr :: fs => by
    have ih := add_neg_self_frames fs
    simp only [negFrames, List.map_cons, addFrames, List.zipWith_cons_cons] at ih ⊢
    rw [zip_add_neg_row fr, ih]

lemma getSample_map_zero (fs : List (List ℚ)) (i c : ℕ) :
    getSample (fs.map (fun fr => fr.map (fun _ => (0:ℚ)))) i c = 0 := by
  unfold getSample
  rw [List.get?_map]
  cases hfs : fs.get? i with
  | none => rfl
  | some fr =>
    simp only [Option.map_some', Option.getD_some]
    exact getD_get?_zero (fun x hx => by
      obtain ⟨y, -, rfl⟩ := List.mem_map.1 hx; rfl) c

lemma subSummed_ok {orig : AudioBuffer} {stems : List (String × AudioBuffer)}
    {summed : List (List ℚ)} (h : subSummed orig stems = .ok summed) :
    stems ≠ [] ∧ orig.frames.length ≠ 0 ∧
      foldSubStems orig.channels orig.frames.length orig.sr
        (zeroFrames orig.frames.length orig.channels) stems = .ok summed := by
  unfold subSummed at h
  by_cases h1 : stems.isEmpty
  · rw [if_pos h1] at h; exact absurd h (by simp)
  · rw [if_neg h1] at h
    by_cases h2 : orig.frames.length = 0
    · rw [if_pos h2] at h; exact absurd h (by simp)
    · rw [if_neg h2] at h
      refine ⟨?_, h2, h⟩
      intro hr
      rw [hr] at h1
      exact h1 rfl

lemma subStemStep_ok_length {channels maxLen sr : ℕ} {combined c1 : List (List ℚ)}
    {s : String × AudioBuffer} (hlen : combined.length = maxLen)
    (h : subStemStep channels maxLen sr combined s = .ok c1) : c1.length = maxLen := by
  unfold subStemStep at h
  by_cases hsr : s.2.sr ≠ sr
  · rw [if_pos hsr] at h; exact absurd h (by simp)
  · rw [if_neg hsr] at h
    cases hrc : reconcileChannels s.1 channels s.2 with
    | error e => rw [hrc] at h; exact absurd h (by simp)
    | ok st =>
      rw [hrc] at h
      cases h
      rw [addFrames_length, alignTo_length, hlen, min_self]

lemma foldSubStems_length (channels maxLen sr : ℕ) :
    ∀ (stems : List (String × AudioBuffer)) (combined C : List (List ℚ)),
      combined.length = maxLen →
      foldSubStems channels maxLen sr combined stems = .ok C → C.length = maxLen
  | [], combined, C, hlen, h => by
    cases h
    exact hlen
  | s :: rest, combined, C, hlen, h => by
    unfold foldSubStems at h
    cases hstep : subStemStep channels maxLen sr combined s with
    | error e => rw [hstep] at h; exact absurd h (by simp)
    | ok c1 =>
      rw [hstep] at h
      exact foldSubStems_length channels maxLen sr rest c1 C
        (subStemStep_ok_length hlen hstep) h

lemma subResult_ok {orig : AudioBuffer} {stems : List (String × AudioBuffer)}
    {result : List (List ℚ)} (h : subResult orig stems = .ok result) :
    ∃ summed, subSummed orig stems = .ok summed ∧
      result = addFrames orig.frames (negFrames summed) := by
  unfold subResult at h
  cases hs : subSummed orig stems with
  | error e => rw [hs] at h; exact absurd h (by simp)
  | ok summed =>
    rw [hs] at h
    cases h
    exact ⟨summed, rfl, rfl⟩

/-- The cancellation result always has the original's frame count. -/
lemma subResult_length {orig : AudioBuffer} {stems : List (String × AudioBuffer)}
    {result : List (List ℚ)} (h : subResult orig stems = .ok result) :
    result.length = orig.frames.length := by
  obtain ⟨summed, hs, rfl⟩ := subResult_ok h
  obtain ⟨-, -, hfold⟩ := subSummed_ok hs
  have hsl : summed.length = orig.frames.length :=
    foldSubStems_length _ _ _ _ _ _ (zeroFrames_length _ _) hfold
  rw [addFrames_length, negFrames_length, hsl, min_self]

/-- A successful subtractive run writes a buffer of the original's length. -/
lemma processSubtract_written_length {orig : AudioBuffer}
    {stems : List (String × AudioBuffer)} {out : List (List ℚ)} {osr : ℕ}
    {nb : Option ℚ}
    (h : processSubtractStems orig stems = .ok (.written out osr nb)) :
    out.length = orig.frames.length := by
  unfold processSubtractStems at h
  cases hr : subResult orig stems with
  | error e => rw [hr] at h; exact absurd h (by simp)
  | ok result =>
    simp only [hr] at h
    have hrl := subResult_length hr
    cases hp : peakOf result with
    | none => simp [hp] at h
    | some peak =>
      simp only [hp] at h
      by_cases hc : 1 < peak ∧ 0 < peak
      · rw [if_pos hc] at h
        cases h
        rw [divFrames_length]
        exact hrl
      · rw [if_neg hc] at h
        cases h
        exact hrl

/-- Folding stems whose frames are all empty (at the reference rate and
channel count) leaves the empty accumulator untouched. -/
lemma foldStems_empty (g : ℚ) (ch r : ℕ) :
    ∀ (rest : List (String × AudioBuffer)),
      (∀ s ∈ rest, s.2.sr = r ∧ s.2.channels = ch ∧ s.2.frames = []) →
      foldStems g ⟨[], 0, ch, r⟩ rest = .ok ⟨[], 0, ch, r⟩
  | [], _ => rfl
  | s :: rest, hall => by
    obtain ⟨hs1, hs2, hs3⟩ := hall s (by simp)
    have hrec : reconcileChannels s.1 ch s.2 = .ok s.2 := by
      unfold reconcileChannels
      rw [if_neg (by simp [hs2])]
    have hstep : addStemStep g ⟨[], 0, ch, r⟩ s = .ok ⟨[], 0, ch, r⟩ := by
      simp [addStemStep, hs1, hrec, hs3, scaleFrames, addFrames]
    simp only [foldStems]
    rw [hstep]
    exact foldStems_empty g ch r rest (fun x hx => hall x (by simp [hx]))

/-! ### The claims -/

/-- C1: in both modes, a stem whose sample rate differs from the reference
rate (the first stem's rate in the additive path, the original's rate in the
subtractive path) makes the run fail with `sampleRateMismatch` naming the
file and both rates.  The per-step clauses hold for every buffer content, so
the failure happens before any sample arithmetic and no resampling is ever
attempted; the run-level clauses show the whole operation errors out with no
output written. -/
theorem C1_sample_rate_mismatch (g : ℚ) (choice : ClipChoice) (acc : MixAcc)
    (channels maxLen sr : ℕ) (combined : List (List ℚ)) (name n0 : String)
    (b first orig : AudioBuffer) (rest stems : List (String × AudioBuffer))
    (h1 : b.sr ≠ acc.sr) (h2 : b.sr ≠ sr) (h3 : b.sr ≠ first.sr)
    (h4 : b.sr ≠ orig.sr) (h5 : orig.frames.length ≠ 0) :
    addStemStep g acc (name, b) = .error (.sampleRateMismatch name b.sr acc.sr) ∧
    subStemStep channels maxLen sr combined (name, b) =
      .error (.sampleRateMismatch name b.sr sr) ∧
    runLowerVolume g choice ((n0, first) :: (name, b) :: rest) =
      .error (.sampleRateMismatch name b.sr first.sr) ∧
    processSubtractStems orig ((name, b) :: stems) =
      .error (.sampleRateMismatch name b.sr orig.sr) := by
  refine ⟨?_, ?_, ?_, ?_⟩
  · simp [addStemStep, h1]
  · simp [subStemStep, h2]
  · simp [runLowerVolume, runLowerVolumeMulti, mixCombined, foldStems,
      addStemStep, initAcc, h3]
  · simp [processSubtractStems, subResult, subSummed, foldSubStems,
      subStemStep, h4, h5]

theorem C1_witness :
    addStemStep 1 ⟨[], 0, 1, 44100⟩ ("s", ⟨[], 1, 48000⟩) =
      .error (.sampleRateMismatch "s" 48000 44100) ∧
    subStemStep 1 0 44100 [] ("s", ⟨[], 1, 48000⟩) =
      .error (.sampleRateMismatch "s" 48000 44100) ∧
    runLowerVolume 1 .yes [("f", ⟨[[1]], 1, 44100⟩), ("s", ⟨[], 1, 48000⟩)] =
      .error (.sampleRateMismatch "s" 48000 44100) ∧
    processSubtractStems ⟨[[1]], 1, 44100⟩ [("s", ⟨[], 1, 48000⟩)] =
      .error (.sampleRateMismatch "s" 48000 44100) :=
  C1_sample_rate_mismatch 1 .yes ⟨[], 0, 1, 44100⟩ 1 0 44100 [] "s" "f"
    ⟨[], 1, 48000⟩ ⟨[[1]], 1, 44100⟩ ⟨[[1]], 1, 44100⟩ [] []
    (by decide) (by decide) (by decide) (by decide) (by decide)

/-- C7: single-stem additive path.  The engine receives the user's dB value
only through the linear gain `g = 10 ** (d / 20)` computed up front; for
every gain, every choice and every buffer, the run writes the scaled buffer
with no clip check and no normalization (`normalizedBy = none`, never
cancelled, regardless of the resulting peak), and every output sample is the
corresponding input sample times the gain. -/
theorem C7_single_stem_gain (g : ℚ) (choice : ClipChoice) (name : String)
    (b : AudioBuffer) :
    runLowerVolume g choice [(name, b)] =
      .ok (.written (scaleFrames g b.frames) b.sr none) ∧
    ∀ i c, getSample (scaleFrames g b.frames) i c = getSample b.frames i c * g :=
  ⟨rfl, getSample_scale g b.frames⟩

/-- C10: additive mix of two or more stems all of which have zero frames.
The combined buffer is empty, so the peak computation `np.max(np.abs(...))`
is applied to an empty array and the operation fails with the modelled numpy
error — no output is written.  By contrast the subtractive path rejects a
zero-frame original up front with its own explicit guard; the additive path
has no such guard and only fails inside the peak reduction. -/
theorem C10_empty_additive_mix (g : ℚ) (choice : ClipChoice) (n1 name : String)
    (first orig b : AudioBuffer) (s2 : String × AudioBuffer)
    (rest2 stems : List (String × AudioBuffer))
    (hf : first.frames = [])
    (hrest : ∀ s ∈ s2 :: rest2,
      s.2.sr = first.sr ∧ s.2.channels = first.channels ∧ s.2.frames = [])
    (ho : orig.frames = []) :
    mixCombined g first (s2 :: rest2) = .ok ⟨[], 0, first.channels, first.sr⟩ ∧
    runLowerVolume g choice ((n1, first) :: s2 :: rest2) = .error .emptyPeak ∧
    processSubtractStems orig ((name, b) :: stems) = .error .emptyOriginal := by
  have hinit : initAcc g first = ⟨[], 0, first.channels, first.sr⟩ := by
    simp [initAcc, hf, scaleFrames]
  have hmix : mixCombined g first (s2 :: rest2) =
      .ok ⟨[], 0, first.channels, first.sr⟩ := by
    unfold mixCombined
    rw [hinit]
    exact foldStems_empty g first.channels first.sr (s2 :: rest2) hrest
  refine ⟨hmix, ?_, ?_⟩
  · simp [runLowerVolume, runLowerVolumeMulti, hmix, peakOf, allSamples]
  · simp [processSubtractStems, subResult, subSummed, ho]

theorem C10_witness :
    mixCombined 1 ⟨[], 1, 44100⟩ [("b", ⟨[], 1, 44100⟩)] =
      .ok ⟨[], 0, 1, 44100⟩ ∧
    runLowerVolume 1 .yes [("a", ⟨[], 1, 44100⟩), ("b", ⟨[], 1, 44100⟩)] =
      .error .emptyPeak ∧
    processSubtractStems ⟨[], 2, 48000⟩ [("x", ⟨[[1]], 1, 48000⟩)] =
      .error .emptyOriginal :=
  C10_empty_additive_mix 1 .yes "a" "x" ⟨[], 1, 44100⟩ ⟨[], 2, 48000⟩
    ⟨[[1]], 1, 48000⟩ ("b", ⟨[], 1, 44100⟩) [] []
    (by decide) (by decide) (by decide)

/-- C2 counterexample: the claim fails as stated.  The same three stems
A = mono [[1]], B = stereo [[0, 1]], C = stereo [[0, 0]] (a permutation of
one another, same gain 1, all at 44100 Hz, all reconciling successfully)
produce combined buffer [[3/2]] in the order [A, B, C] but [[1, 2]] in the
order [B, A, C]: the reference channel count is the first stem's, so the
permuted run reconciles the other stems differently and the combined buffers
differ in shape and value, far beyond floating-point tolerance. -/
theorem C2_counterexample :
    (([⟨[[1]], 1, 44100⟩, ⟨[[0, 1]], 2, 44100⟩, ⟨[[0, 0]], 2, 44100⟩] :
        List AudioBuffer).Perm
      [⟨[[0, 1]], 2, 44100⟩, ⟨[[1]], 1, 44100⟩, ⟨[[0, 0]], 2, 44100⟩]) ∧
    mixCombined 1 ⟨[[1]], 1, 44100⟩
        [("B", ⟨[[0, 1]], 2, 44100⟩), ("C", ⟨[[0, 0]], 2, 44100⟩)] =
      .ok ⟨[[3/2]], 1, 1, 44100⟩ ∧
    mixCombined 1 ⟨[[0, 1]], 2, 44100⟩
        [("A", ⟨[[1]], 1, 44100⟩), ("C", ⟨[[0, 0]], 2, 44100⟩)] =
      .ok ⟨[[1, 2]], 1, 2, 44100⟩ ∧
    ([[(3:ℚ)/2]] : List (List ℚ)) ≠ [[1, 2]] := by
  refine ⟨List.Perm.swap (⟨[[0, 1]], 2, 44100⟩ : AudioBuffer)
    (⟨[[1]], 1, 44100⟩ : AudioBuffer) [⟨[[0, 0]], 2, 44100⟩], ?_, ?_, by norm_num⟩
  · norm_num [mixCombined, foldStems, addStemStep, initAcc, reconcileChannels,
      scaleFrames, stereoToMono, monoToStereo, addFrames, padTo, zeroFrames]
  · norm_num [mixCombined, foldStems, addStemStep, initAcc, reconcileChannels,
      scaleFrames, stereoToMono, monoToStereo, addFrames, padTo, zeroFrames]

/-- C2 amended: for stems that all share one channel count (and the common
sample rate required for success), any gain, and any permutation of the
stems, the additive accumulation produces exactly the same result — the same
combined buffer, running length, reference channel count and rate — before
any clip normalization.  Over the rational model the agreement is exact, not
merely within floating-point tolerance.  The equal-channel-count hypothesis
is what the counterexample forces: without it the first stem fixes the
reference channel count and permuting changes the output. -/
theorem C2_permutation_invariance (g : ℚ) (ch r : ℕ)
    (first1 first2 : AudioBuffer) (rest1 rest2 : List (String × AudioBuffer))
    (hperm : (first1 :: rest1.map Prod.snd).Perm (first2 :: rest2.map Prod.snd))
    (hall : ∀ b ∈ first1 :: rest1.map Prod.snd,
      b.channels = ch ∧ b.sr = r ∧ Rect b.frames ch) :
    mixCombined g first1 rest1 = mixCombined g first2 rest2 := by
  have hall2 : ∀ b ∈ first2 :: rest2.map Prod.snd,
      b.channels = ch ∧ b.sr = r ∧ Rect b.frames ch :=
    fun b hb => hall b (hperm.mem_iff.2 hb)
  have hf1 := hall first1 (by simp)
  have hf2 := hall2 first2 (by simp)
  have hrest1 : ∀ s ∈ rest1, s.2.sr = r ∧ s.2.channels = ch ∧ Rect s.2.frames ch := by
    intro s hs
    have h := hall s.2 (List.mem_cons.2 (Or.inr (List.mem_map_of_mem Prod.snd hs)))
    exact ⟨h.2.1, h.1, h.2.2⟩
  have hrest2 : ∀ s ∈ rest2, s.2.sr = r ∧ s.2.channels = ch ∧ Rect s.2.frames ch := by
    intro s hs
    have h := hall2 s.2 (List.mem_cons.2 (Or.inr (List.mem_map_of_mem Prod.snd hs)))
    exact ⟨h.2.1, h.1, h.2.2⟩
  obtain ⟨D1, he1, hrect1, hlen1, hget1⟩ :=
    mixCombined_spec g ch r first1 rest1 hf1.1 hf1.2.1 hf1.2.2 hrest1
  obtain ⟨D2, he2, hrect2, hlen2, hget2⟩ :=
    mixCombined_spec g ch r first2 rest2 hf2.1 hf2.2.1 hf2.2.2 hrest2
  have hL : restMaxLen first1.frames.length rest1 =
      restMaxLen first2.frames.length rest2 := by
    rw [restMaxLen_eq, restMaxLen_eq]
    have h0 := foldl_max_perm (hperm.map (fun b => b.frames.length)) 0
    simp only [List.map_cons, List.foldl_cons, Nat.zero_max] at h0
    exact h0
  have hS : ∀ i c, getSample first1.frames i c * g + stemSum g rest1 i c =
      getSample first2.frames i c * g + stemSum g rest2 i c := by
    intro i c
    have hsum := (hperm.map (fun b => getSample b.frames i c * g)).sum_eq
    simp only [List.map_cons, List.sum_cons] at hsum
    rw [stemSum_eq, stemSum_eq]
    exact hsum
  have hD : D1 = D2 :=
    frames_ext hrect1 hrect2 (by rw [hlen1, hlen2, hL])
      (fun i c => by rw [hget1 i c, hget2 i c]; exact hS i c)
  rw [he1, he2, hD, hL]

theorem C2_witness :
    mixCombined 1 ⟨[[1/2]], 1, 44100⟩ [("y", ⟨[[1/3], [1/4]], 1, 44100⟩)] =
      mixCombined 1 ⟨[[1/3], [1/4]], 1, 44100⟩ [("x", ⟨[[1/2]], 1, 44100⟩)] :=
  C2_permutation_invariance 1 1 44100 ⟨[[1/2]], 1, 44100⟩
    ⟨[[1/3], [1/4]], 1, 44100⟩ [("y", ⟨[[1/3], [1/4]], 1, 44100⟩)]
    [("x", ⟨[[1/2]], 1, 44100⟩)]
    (List.Perm.swap (⟨[[1/3], [1/4]], 1, 44100⟩ : AudioBuffer)
      (⟨[[1/2]], 1, 44100⟩ : AudioBuffer) [])
    (by decide)

/-- C3: additive mix with two or more stems whose combined peak exceeds full
scale.  The run supports exactly the three dialog outcomes: cancel
short-circuits with no output written; allow-clipping writes the combined
buffer unchanged with no normalization recorded; normalization writes the
buffer divided by the measured peak — whose resulting peak is then exactly
1 — and records the division.  The last clause renders the code's dB
bookkeeping `reduction_db = 20*log10(peak)` and
`total_db = gain_db - reduction_db`: dividing the gain by the peak is
exactly a reduction of `20*log10(peak)` dB, and that reduced figure is
recorded only on the normalization branch. -/
theorem C3_clip_guard_outcomes (g : ℚ) (s1 s2 : String × AudioBuffer)
    (rest : List (String × AudioBuffer)) (acc : MixAcc) (p : ℚ)
    (hmix : mixCombined g s1.2 (s2 :: rest) = .ok acc)
    (hpeak : peakOf acc.combined = some p) (hp : 1 < p) :
    runLowerVolume g .cancel (s1 :: s2 :: rest) = .ok .cancelled ∧
    runLowerVolume g .no (s1 :: s2 :: rest) =
      .ok (.written acc.combined acc.sr none) ∧
    runLowerVolume g .yes (s1 :: s2 :: rest) =
      .ok (.written (divFrames p acc.combined) acc.sr (some p)) ∧
    peakOf (divFrames p acc.combined) = some 1 ∧
    ∀ d : ℝ, (10:ℝ) ^ ((d - 20 * Real.logb 10 (p:ℝ)) / 20) =
      (10:ℝ) ^ (d / 20) / (p:ℝ) := by
  have hp0 : (0:ℚ) < p := lt_trans zero_lt_one hp
  refine ⟨?_, ?_, ?_, ?_, ?_⟩
  · simp [runLowerVolume, runLowerVolumeMulti, hmix, hpeak, hp]
  · simp [runLowerVolume, runLowerVolumeMulti, hmix, hpeak, hp]
  · simp [runLowerVolume, runLowerVolumeMulti, hmix, hpeak, hp]
  · rw [peakOf_div p hp0 hpeak, div_self (ne_of_gt hp0)]
  · intro d
    have h10 : (0:ℝ) < 10 := by norm_num
    have hpr : (0:ℝ) < (p:ℝ) := by exact_mod_cast hp0
    have harg : (d - 20 * Real.logb 10 (p:ℝ)) / 20 =
        d / 20 - Real.logb 10 (p:ℝ) := by ring
    rw [harg, Real.rpow_sub h10, Real.rpow_logb h10 (by norm_num) hpr]

theorem C3_witness :
    runLowerVolume 1 .cancel
        [("a", ⟨[[3/5]], 1, 44100⟩), ("b", ⟨[[3/5]], 1, 44100⟩)] =
      .ok .cancelled ∧
    runLowerVolume 1 .no
        [("a", ⟨[[3/5]], 1, 44100⟩), ("b", ⟨[[3/5]], 1, 44100⟩)] =
      .ok (.written [[6/5]] 44100 none) ∧
    runLowerVolume 1 .yes
        [("a", ⟨[[3/5]], 1, 44100⟩), ("b", ⟨[[3/5]], 1, 44100⟩)] =
      .ok (.written (divFrames (6/5) [[6/5]]) 44100 (some (6/5))) ∧
    peakOf (divFrames (6/5) [[6/5]]) = some 1 := by
  have h := C3_clip_guard_outcomes 1 ("a", ⟨[[3/5]], 1, 44100⟩)
    ("b", ⟨[[3/5]], 1, 44100⟩) [] ⟨[[6/5]], 1, 1, 44100⟩ (6/5)
    (by norm_num [mixCombined, foldStems, addStemStep, initAcc,
      reconcileChannels, scaleFrames, addFrames])
    (by norm_num [peakOf, allSamples, abs_of_pos]) (by norm_num)
  exact ⟨h.1, h.2.1, h.2.2.1, h.2.2.2.1⟩

/-- C4: additive mix over stems of equal channel count and rate.  The
combined buffer's frame count is the running maximum `restMaxLen` of the
stems' frame counts, growing monotonically as stems are folded in; every
combined sample is the gain-scaled sum of the stems' zero-extended samples;
and any buffer contributes exactly 0 at every frame index at or beyond its
own length. -/
theorem C4_length_growth (g : ℚ) (ch r : ℕ) (first : AudioBuffer)
    (rest : List (String × AudioBuffer))
    (h1 : first.channels = ch) (h2 : first.sr = r) (h3 : Rect first.frames ch)
    (hall : ∀ s ∈ rest, s.2.sr = r ∧ s.2.channels = ch ∧ Rect s.2.frames ch) :
    (∃ C, mixCombined g first rest =
        .ok ⟨C, restMaxLen first.frames.length rest, ch, r⟩ ∧
      C.length = restMaxLen first.frames.length rest ∧
      ∀ i c, getSample C i c =
        getSample first.frames i c * g + stemSum g rest i c) ∧
    ∀ (fs : List (List ℚ)) (i c : ℕ), fs.length ≤ i → getSample fs i c = 0 := by
  obtain ⟨D, he, -, hl, hg⟩ := mixCombined_spec g ch r first rest h1 h2 h3 hall
  exact ⟨⟨D, he, hl, hg⟩, getSample_oob⟩

theorem C4_witness :
    (∃ C, mixCombined 1 ⟨zeroFrames 100 1, 1, 44100⟩
          [("b", ⟨zeroFrames 250 1, 1, 44100⟩), ("c", ⟨zeroFrames 80 1, 1, 44100⟩)] =
        .ok ⟨C, restMaxLen (zeroFrames 100 1).length
            [("b", ⟨zeroFrames 250 1, 1, 44100⟩), ("c", ⟨zeroFrames 80 1, 1, 44100⟩)],
          1, 44100⟩ ∧
      C.length = restMaxLen (zeroFrames 100 1).length
        [("b", ⟨zeroFrames 250 1, 1, 44100⟩), ("c", ⟨zeroFrames 80 1, 1, 44100⟩)] ∧
      ∀ i c, getSample C i c = getSample (zeroFrames 100 1) i c * 1 +
        stemSum 1 [("b", ⟨zeroFrames 250 1, 1, 44100⟩),
          ("c", ⟨zeroFrames 80 1, 1, 44100⟩)] i c) ∧
    (∀ (fs : List (List ℚ)) (i c : ℕ), fs.length ≤ i → getSample fs i c = 0) ∧
    restMaxLen (zeroFrames 100 1).length
      [("b", ⟨zeroFrames 250 1, 1, 44100⟩), ("c", ⟨zeroFrames 80 1, 1, 44100⟩)] = 250 := by
  have h := C4_length_growth 1 1 44100 ⟨zeroFrames 100 1, 1, 44100⟩
    [("b", ⟨zeroFrames 250 1, 1, 44100⟩), ("c", ⟨zeroFrames 80 1, 1, 44100⟩)]
    rfl rfl (Rect_zero 100 1)
    (by
      intro s hs
      rcases List.mem_cons.1 hs with rfl | hs2
      · exact ⟨rfl, rfl, Rect_zero 250 1⟩
      · rcases List.mem_cons.1 hs2 with rfl | hs3
        · exact ⟨rfl, rfl, Rect_zero 80 1⟩
        · exact absurd hs3 (List.not_mem_nil _))
  have h250 : restMaxLen (zeroFrames 100 1).length
      [("b", ⟨zeroFrames 250 1, 1, 44100⟩), ("c", ⟨zeroFrames 80 1, 1, 44100⟩)] = 250 := by
    unfold restMaxLen
    simp only [List.foldl_cons, List.foldl_nil, zeroFrames_length]
    omega
  exact ⟨h.1, h.2, h250⟩

/-- C5: length alignment of the subtractive path.  A stem shorter than the
original's frame count is right-padded with zero frames, a longer one is
right-truncated, and alignment always produces exactly the original's frame
count; one loop iteration (for a stem already at the reference channel
count) accumulates exactly the aligned stem; and every successful run writes
a buffer with exactly the original's frame count — the reference length
never grows. -/
theorem C5_subtractive_alignment (channels maxLen sr : ℕ)
    (combined fs : List (List ℚ)) (name : String) (b orig : AudioBuffer)
    (stems : List (String × AudioBuffer)) (out : List (List ℚ)) (osr : ℕ)
    (nb : Option ℚ) (hb1 : b.sr = sr) (hb2 : b.channels = channels)
    (hrun : processSubtractStems orig stems = .ok (.written out osr nb)) :
    (fs.length < maxLen →
      alignTo maxLen channels fs = fs ++ zeroFrames (maxLen - fs.length) channels) ∧
    (maxLen < fs.length → alignTo maxLen channels fs = fs.take maxLen) ∧
    (alignTo maxLen channels fs).length = maxLen ∧
    subStemStep channels maxLen sr combined (name, b) =
      .ok (addFrames combined (alignTo maxLen channels b.frames)) ∧
    out.length = orig.frames.length := by
  have hrec : reconcileChannels name channels b = .ok b := by
    unfold reconcileChannels
    rw [if_neg (by simp [hb2])]
  refine ⟨?_, ?_, alignTo_length maxLen channels fs, ?_, ?_⟩
  · intro h
    unfold alignTo
    rw [if_pos h]
    rfl
  · intro h
    unfold alignTo
    rw [if_neg (by omega), if_pos h]
  · simp [subStemStep, hb1, hrec]
  · exact processSubtract_written_length hrun

theorem C5_witness :
    (([[1]] : List (List ℚ)).length < 2 →
      alignTo 2 1 [[1]] = [[1]] ++ zeroFrames (2 - ([[1]] : List (List ℚ)).length) 1) ∧
    (2 < ([[1]] : List (List ℚ)).length → alignTo 2 1 [[1]] = ([[1]] : List (List ℚ)).take 2) ∧
    (alignTo 2 1 [[1]]).length = 2 ∧
    subStemStep 1 2 44100 [[0], [0]] ("t", ⟨[[2]], 1, 44100⟩) =
      .ok (addFrames [[0], [0]] (alignTo 2 1 [[2]])) ∧
    ([[-1]] : List (List ℚ)).length =
      (⟨[[0]], 1, 44100⟩ : AudioBuffer).frames.length :=
  C5_subtractive_alignment 1 2 44100 [[0], [0]] [[1]] "t" ⟨[[2]], 1, 44100⟩
    ⟨[[0]], 1, 44100⟩ [("s", ⟨[[1]], 1, 44100⟩)] [[-1]] 44100 none rfl rfl
    (by norm_num [processSubtractStems, subResult, subSummed, foldSubStems,
      subStemStep, reconcileChannels, alignTo, addFrames, negFrames,
      zeroFrames, padTo, peakOf, allSamples])

/-- C6: channel reconciliation against the reference channel count (the
first stem's in the additive path, the original's in the subtractive path).
A mono stem against a stereo reference has its single channel duplicated
exactly into both output channels; a stereo stem against a mono reference is
replaced frame by frame with the arithmetic mean of its two channels; every
other differing combination fails with `channelMismatch` naming the
offending file; equal counts pass the buffer through. -/
theorem C6_channel_reconciliation (file : String) (ch : ℕ) (b : AudioBuffer)
    (fs : List (List ℚ)) :
    (b.channels = 1 → ch = 2 →
      reconcileChannels file ch b = .ok ⟨monoToStereo b.frames, 2, b.sr⟩) ∧
    (b.channels = 2 → ch = 1 →
      reconcileChannels file ch b = .ok ⟨stereoToMono b.frames, 1, b.sr⟩) ∧
    (Rect fs 1 → ∀ i c, c < 2 →
      getSample (monoToStereo fs) i c = getSample fs i 0) ∧
    (Rect fs 2 → ∀ i, getSample (stereoToMono fs) i 0 =
      (getSample fs i 0 + getSample fs i 1) / 2) ∧
    (b.channels ≠ ch → ¬(b.channels = 1 ∧ ch = 2) → ¬(b.channels = 2 ∧ ch = 1) →
      reconcileChannels file ch b = .error (.channelMismatch file)) := by
  refine ⟨?_, ?_, ?_, ?_, ?_⟩
  · intro h1 h2
    unfold reconcileChannels
    rw [if_pos (by simp [h1, h2]), if_pos ⟨h1, h2⟩]
  · intro h1 h2
    unfold reconcileChannels
    rw [if_pos (by simp [h1, h2]), if_neg (by simp [h1, h2]), if_pos ⟨h1, h2⟩]
  · intro hr i c hc
    unfold getSample monoToStereo
    rw [List.get?_map]
    cases hfs : fs.get? i with
    | none => rfl
    | some fr =>
      have hl : fr.length = 1 := hr fr (List.get?_mem hfs)
      simp only [Option.map_some', Option.getD_some]
      rcases fr with - | ⟨x, - | ⟨y, t⟩⟩
      · simp at hl
      · interval_cases c <;> rfl
      · simp at hl
  · intro hr i
    unfold getSample stereoToMono
    rw [List.get?_map]
    cases hfs : fs.get? i with
    | none => norm_num
    | some fr =>
      have hl : fr.length = 2 := hr fr (List.get?_mem hfs)
      simp only [Option.map_some', Option.getD_some]
      rcases fr with - | ⟨x, - | ⟨y, - | ⟨z, t⟩⟩⟩
      · simp at hl
      · simp at hl
      · show (([(x + (y + 0)) / (([x, y].length : ℕ) : ℚ)].get? 0).getD 0) = _
        norm_num
      · simp at hl
  · intro h1 h2 h3
    unfold reconcileChannels
    rw [if_pos h1, if_neg h2, if_neg h3]

theorem C6_witness :
    reconcileChannels "k" 1 ⟨[[3/5, 1/5]], 2, 44100⟩ =
      .ok ⟨stereoToMono [[3/5, 1/5]], 1, 44100⟩ ∧
    stereoToMono [[3/5, 1/5]] = [[2/5]] ∧
    reconcileChannels "k" 2 ⟨[[1/2]], 1, 44100⟩ =
      .ok ⟨monoToStereo [[1/2]], 2, 44100⟩ ∧
    monoToStereo [[1/2]] = [[1/2, 1/2]] ∧
    reconcileChannels "k" 1 ⟨[[0, 0, 0]], 3, 44100⟩ =
      .error (.channelMismatch "k") := by
  have h1 := C6_channel_reconciliation "k" 1 ⟨[[3/5, 1/5]], 2, 44100⟩ [[3/5, 1/5]]
  have h2 := C6_channel_reconciliation "k" 2 ⟨[[1/2]], 1, 44100⟩ []
  have h3 := C6_channel_reconciliation "k" 1 ⟨[[0, 0, 0]], 3, 44100⟩ []
  refine ⟨h1.2.1 rfl rfl, ?_, h2.1 rfl rfl, ?_,
    h3.2.2.2.2 (by decide) (by decide) (by decide)⟩
  · norm_num [stereoToMono]
  · norm_num [monoToStereo]

/-- C8: the Clip Guard divides by the measured peak only when it exceeds 1.
In the subtractive path a peak above 1 triggers silent normalization (the
definition takes no dialog choice at all) recording the divisor, and the
divisor is then provably nonzero; any peak at most 1 — including the
degenerate all-silent peak 0 — leaves the buffer untouched in both modes
(the additive run then ignores the dialog choice entirely), so division by
zero can never occur. -/
theorem C8_clip_guard_division (orig : AudioBuffer)
    (stems : List (String × AudioBuffer)) (result : List (List ℚ)) (p g q : ℚ)
    (s1 s2 : String × AudioBuffer) (rest : List (String × AudioBuffer))
    (acc : MixAcc)
    (hsub : subResult orig stems = .ok result) (hp : peakOf result = some p)
    (hmix : mixCombined g s1.2 (s2 :: rest) = .ok acc)
    (hq : peakOf acc.combined = some q) :
    (p ≤ 1 → processSubtractStems orig stems = .ok (.written result orig.sr none)) ∧
    (1 < p → processSubtractStems orig stems =
      .ok (.written (divFrames p result) orig.sr (some p)) ∧ p ≠ 0) ∧
    (q ≤ 1 → ∀ choice, runLowerVolume g choice (s1 :: s2 :: rest) =
      .ok (.written acc.combined acc.sr none)) := by
  refine ⟨?_, ?_, ?_⟩
  · intro hple
    have hcond : ¬(1 < p ∧ 0 < p) := fun hc => absurd hc.1 (not_lt.2 hple)
    simp [processSubtractStems, hsub, hp, hcond]
  · intro hplt
    have h0 : (0:ℚ) < p := lt_trans zero_lt_one hplt
    exact ⟨by simp [processSubtractStems, hsub, hp, hplt, h0], ne_of_gt h0⟩
  · intro hqle choice
    have hnq : ¬(1 < q) := not_lt.2 hqle
    simp [runLowerVolume, runLowerVolumeMulti, hmix, hq, hnq]

theorem C8_witness :
    processSubtractStems ⟨[[0]], 1, 44100⟩ [("s", ⟨[[0]], 1, 44100⟩)] =
      .ok (.written [[0]] 44100 none) ∧
    runLowerVolume 1 .yes [("a", ⟨[[1/4]], 1, 44100⟩), ("b", ⟨[[1/4]], 1, 44100⟩)] =
      .ok (.written [[1/2]] 44100 none) := by
  have h := C8_clip_guard_division ⟨[[0]], 1, 44100⟩ [("s", ⟨[[0]], 1, 44100⟩)]
    [[0]] 0 1 (1/2) ("a", ⟨[[1/4]], 1, 44100⟩) ("b", ⟨[[1/4]], 1, 44100⟩) []
    ⟨[[1/2]], 1, 1, 44100⟩
    (by norm_num [subResult, subSummed, foldSubStems, subStemStep,
      reconcileChannels, alignTo, addFrames, negFrames, zeroFrames, padTo])
    (by norm_num [peakOf, allSamples])
    (by norm_num [mixCombined, foldStems, addStemStep, initAcc,
      reconcileChannels, scaleFrames, addFrames])
    (by norm_num [peakOf, allSamples, abs_of_pos])
  exact ⟨h.1 (by norm_num), h.2.2 (by norm_num) .yes⟩

/-- C9: the subtractive result is exactly the original plus the phase
inversion of the summed, reconciled, aligned stems.  When the original
equals that sum exactly, the result is the all-zero buffer, its peak is 0,
no normalization occurs, and the silent buffer is written unchanged. -/
theorem C9_phase_cancellation (orig : AudioBuffer)
    (stems : List (String × AudioBuffer)) (summed : List (List ℚ))
    (hs : subSummed orig stems = .ok summed) :
    subResult orig stems = .ok (addFrames orig.frames (negFrames summed)) ∧
    (orig.frames = summed → 0 < orig.channels → Rect orig.frames orig.channels →
      (∀ i c, getSample (addFrames orig.frames (negFrames summed)) i c = 0) ∧
      peakOf (addFrames orig.frames (negFrames summed)) = some 0 ∧
      processSubtractStems orig stems =
        .ok (.written (addFrames orig.frames (negFrames summed)) orig.sr none)) := by
  have hres : subResult orig stems = .ok (addFrames orig.frames (negFrames summed)) := by
    simp [subResult, hs]
  refine ⟨hres, ?_⟩
  intro heq hch hrect
  subst heq
  have hzero : addFrames orig.frames (negFrames orig.frames) =
      orig.frames.map (fun fr => fr.map (fun _ => (0:ℚ))) :=
    add_neg_self_frames orig.frames
  have hsamp : ∀ i c, getSample (addFrames orig.frames (negFrames orig.frames)) i c = 0 := by
    intro i c
    rw [hzero]
    exact getSample_map_zero orig.frames i c
  have hpk : peakOf (addFrames orig.frames (negFrames orig.frames)) = some 0 := by
    rw [hzero]
    apply peakOf_zeros
    · intro x hx
      unfold allSamples at hx
      obtain ⟨l, hl, hxl⟩ := List.mem_flatten.1 hx
      obtain ⟨fr, -, rfl⟩ := List.mem_map.1 hl
      obtain ⟨y, -, rfl⟩ := List.mem_map.1 hxl
      rfl
    · obtain ⟨-, hlen, -⟩ := subSummed_ok hs
      obtain ⟨r, t, hfr⟩ : ∃ r t, orig.frames = r :: t := by
        cases hfo : orig.frames with
        | nil => rw [hfo] at hlen; simp at hlen
        | cons r t => exact ⟨r, t, rfl⟩
      have hrl : r.length = orig.channels := hrect r (by rw [hfr]; simp)
      obtain ⟨a, ra, hra⟩ : ∃ a ra, r = a :: ra := by
        cases hr0 : r with
        | nil => rw [hr0] at hrl; rw [← hrl] at hch; simp at hch
        | cons a ra => exact ⟨a, ra, rfl⟩
      rw [hfr, hra]
      simp [allSamples]
  have hcond : ¬((1:ℚ) < 0 ∧ (0:ℚ) < 0) := by norm_num
  exact ⟨hsamp, hpk, by simp [processSubtractStems, hres, hpk, hcond]⟩

theorem C9_witness :
    subResult ⟨[[1/2]], 1, 44100⟩ [("a", ⟨[[1/2]], 1, 44100⟩)] =
      .ok (addFrames [[1/2]] (negFrames [[1/2]])) ∧
    peakOf (addFrames [[1/2]] (negFrames [[1/2]])) = some 0 ∧
    processSubtractStems ⟨[[1/2]], 1, 44100⟩ [("a", ⟨[[1/2]], 1, 44100⟩)] =
      .ok (.written (addFrames [[1/2]] (negFrames [[1/2]])) 44100 none) := by
  have h := C9_phase_cancellation ⟨[[1/2]], 1, 44100⟩
    [("a", ⟨[[1/2]], 1, 44100⟩)] [[1/2]]
    (by norm_num [subSummed, foldSubStems, subStemStep, reconcileChannels,
      alignTo, addFrames, zeroFrames, padTo])
  have h2 := h.2 rfl (by decide) (by decide)
  exact ⟨h.1, h2.2.1, h2.2.2⟩

end MinusStems
